import Mathlib

/-!
xdwa_local_planner: the Best-K selector, the lookahead search and the control loop.

A shallow embedding of `src/xdwa_local_planner.cpp`.

* `double` values are modelled as `Int`: the planner itself only copies them around and
  compares costs, so only the linear order matters here (NaN is not modelled; the search
  filters candidates with `cost_ >= 0`, which no NaN passes).
* A `std::vector` is a `List`; every `operator[]`, `back()` and indexed write is bounds
  checked and the model returns `none` where the C++ would read or write out of bounds.
* `std::shared_ptr<Trajectory>` is a `Trajectory` value: the planner never mutates a
  trajectory through two aliases (children are fresh copies of their parent).
* `int` members and counters are `Int` or `Nat`; vector sizes are assumed to fit an `int`,
  so `(int) trajectories.size()` is the length.
* `computeTwist` runs in its own thread; what it reads from the other thread and from the
  transform service in one iteration is an `Observation`, and the loop is a step function
  over a sequence of observations.
-/

namespace XDWA

/-- Modelled from the spec: the `Trajectory` class is declared in a header that is not part
of the sources; its members are the ones `xdwa_local_planner.cpp` reads and writes. -/
structure Trajectory where
  cost_ : Int
  num_points_ : Int
  num_points_scored_ : Int
  x_ : List Int
  y_ : List Int
  theta_ : List Int
  vel_x_ : List Int
  vel_y_ : List Int
  vel_theta_ : List Int
deriving DecidableEq, Repr

/-! ## getBestTrajectories (lines 247-274) -/

/-- The locals of `getBestTrajectories`: `best_traj`, `max_cost` and `index`. -/
structure SelState where
  best_traj : List Trajectory
  max_cost : Int
  index : Nat
deriving DecidableEq, Repr

/-- Body of the first loop (lines 253-257), at loop counter `i`. -/
def seedStep (trajectories : List Trajectory) (s : SelState) (i : Nat) : Option SelState :=
  match trajectories[i]? with
  | none => none
  | some t =>
    let best := s.best_traj ++ [t]
    if t.cost_ > s.max_cost then some ⟨best, t.cost_, i⟩
    else some ⟨best, s.max_cost, s.index⟩

/-- Body of the inner rescan loop (lines 266-269), at loop counter `j`; the state is
`(max_cost, index)`. -/
def rescanStep (best_traj : List Trajectory) (s : Int × Nat) (j : Nat) : Option (Int × Nat) :=
  match best_traj[j]? with
  | none => none
  | some b => if b.cost_ > s.1 then some (b.cost_, j) else some s

/-- Lines 263-270: `max_cost = best_traj[0]->cost_; index = 0;` followed by the loop over
`j = 1 .. num_best_traj - 1`. -/
def rescan (best_traj : List Trajectory) (num_best_traj : Int) : Option (Int × Nat) :=
  match best_traj[0]? with
  | none => none
  | some b0 =>
    (List.range' 1 (num_best_traj.toNat - 1)).foldlM (rescanStep best_traj) (b0.cost_, 0)

/-- Body of the second loop (lines 261-271), at loop counter `i`. -/
def replaceStep (trajectories : List Trajectory) (num_best_traj : Int)
    (s : SelState) (i : Nat) : Option SelState :=
  match trajectories[i]? with
  | none => none
  | some t =>
    if t.cost_ < s.max_cost then
      if s.index < s.best_traj.length then
        let best := s.best_traj.set s.index t
        match rescan best num_best_traj with
        | none => none
        | some (m, idx) => some ⟨best, m, idx⟩
      else none
    else some s

/-- The two loops of `getBestTrajectories` (lines 249-272), returning all three locals.
`none` is an out-of-bounds access. The second loop compares the `int` counter with the
unsigned `trajectories.size()`, so a negative `num_best_traj` never enters it. -/
def selectorLoops (num_best_traj_ : Int) (trajectories : List Trajectory) :
    Option SelState :=
  let num_best_traj : Int := min num_best_traj_ (trajectories.length : Int)
  match trajectories[0]? with
  | none => none
  | some t0 =>
    match (List.range' 0 num_best_traj.toNat).foldlM (seedStep trajectories)
        ⟨[], t0.cost_, 0⟩ with
    | none => none
    | some s1 =>
      if num_best_traj < 0 then some s1
      else
        (List.range' num_best_traj.toNat (trajectories.length - num_best_traj.toNat)).foldlM
          (replaceStep trajectories num_best_traj) s1

/-- `XDWALocalPlanner::getBestTrajectories`, with the member `num_best_traj_` passed in:
the loops followed by `return best_traj`. -/
def getBestTrajectories (num_best_traj_ : Int) (trajectories : List Trajectory) :
    Option (List Trajectory) :=
  (selectorLoops num_best_traj_ trajectories).map (fun s => s.best_traj)

/-! ## computeBestTrajectory (lines 178-245) -/

/-- Modelled from the spec: one element of `tg_->vsamples_`, a velocity sample
(linear-x, linear-y, angular-z); its type is declared in a header that is not part of the
sources. -/
structure Velocity where
  x : Int
  y : Int
  theta : Int
deriving DecidableEq, Repr

/-- The part of a `geometry_msgs` pose the planner reads: the position and the yaw that
`tf2::getYaw` extracts from the orientation. -/
structure Pose where
  x : Int
  y : Int
  yaw : Int
deriving DecidableEq, Repr

/-- Modelled from the spec: the `TrajectoryGenerator` (`tg_`) and `TrajectoryScorer` (`ts_`)
classes are not part of the sources. The spec describes the sampler as deterministic, the
generator as a pure function of its inputs and the scorer as free of hidden state, so each
is a function here. `generateSamples vx vy w` is the content of `tg_->vsamples_` after the
call; `generateTrajectory` returns the trajectory it filled in, or `none` where the C++
returns `false`; `getTrajectoryScore` returns the trajectory with its cost assigned. -/
structure Collaborators where
  generateSamples : Int → Int → Int → List Velocity
  generateTrajectory : Velocity → Int → Int → Int → Int → Int → Trajectory → Option Trajectory
  getTrajectoryScore : Trajectory → Trajectory

/-- The members of `XDWALocalPlanner` that the search and the control loop read. -/
structure Planner where
  depth_ : Int
  num_best_traj_ : Int
  num_steps_ : Int
  sim_time_ : Int
  xy_goal_tolerance_ : Int
deriving DecidableEq, Repr

/-- Lines 194-197 and 215-218: a scored trajectory is appended to the candidate list only
if its cost is not negative. -/
def keepIfValid (trajectories : List Trajectory) (tj : Trajectory) : List Trajectory :=
  if tj.cost_ ≥ 0 then trajectories ++ [{ tj with num_points_scored_ := tj.num_points_ }]
  else trajectories

/-- Body of the loop over the samples of round 0 (lines 182-198). -/
def firstRoundStep (C : Collaborators) (P : Planner) (pose : Pose)
    (trajectories : List Trajectory) (vsample : Velocity) : List Trajectory :=
  let tj : Trajectory := ⟨0, 0, 0, [], [], [], [], [], []⟩
  match C.generateTrajectory vsample pose.x pose.y pose.yaw P.sim_time_ P.num_steps_ tj with
  | some tj => keepIfValid trajectories (C.getTrajectoryScore tj)
  | none => trajectories

/-- Round 0 (lines 179-199): the candidates generated from the current velocity and pose. -/
def firstRound (C : Collaborators) (P : Planner) (vx vy w : Int) (pose : Pose) :
    List Trajectory :=
  (C.generateSamples vx vy w).foldl (firstRoundStep C P pose) []

/-- Body of the loop over the samples for one kept parent (lines 211-219); `tj_new` starts
as a copy of the parent `tj`. -/
def expandStep (C : Collaborators) (P : Planner) (tj : Trajectory)
    (traj : List Trajectory) (vsample : Velocity) : Option (List Trajectory) :=
  let tj_new := tj
  match tj_new.x_.getLast?, tj_new.y_.getLast?, tj_new.theta_.getLast? with
  | some x, some y, some th =>
    match C.generateTrajectory vsample x y th P.sim_time_ P.num_steps_ tj_new with
    | some tj_new => some (keepIfValid traj (C.getTrajectoryScore tj_new))
    | none => some traj
  | _, _, _ => none

/-- Body of the loop over the kept parents (lines 209-220). -/
def expandOne (C : Collaborators) (P : Planner) (traj : List Trajectory) (tj : Trajectory) :
    Option (List Trajectory) :=
  match tj.vel_x_.getLast?, tj.vel_y_.getLast?, tj.vel_theta_.getLast? with
  | some vx, some vy, some w => (C.generateSamples vx vy w).foldlM (expandStep C P tj) traj
  | _, _, _ => none

/-- Lines 207-221: the candidates `traj` of a later round, collected across all kept
parents. -/
def expandRound (C : Collaborators) (P : Planner) (trajectories : List Trajectory) :
    Option (List Trajectory) :=
  trajectories.foldlM (expandOne C P) []

/-- The local `trajectories` between rounds, together with the candidate list that the last
call of `getBestTrajectories` was given (`collected`, kept here only to state properties
about it). -/
structure Frontier where
  collected : List Trajectory
  trajectories : List Trajectory
deriving DecidableEq, Repr

/-- The loop `for (int i = 1; i < depth_; ++i)` (lines 206-225) with `n` rounds left. The
outer `none` is an out-of-bounds access, `some none` is `return false`. -/
def laterRounds (C : Collaborators) (P : Planner) : Nat → Frontier → Option (Option Frontier)
  | 0, f => some (some f)
  | n + 1, f =>
    match expandRound C P f.trajectories with
    | none => none
    | some traj =>
      match getBestTrajectories P.num_best_traj_ traj with
      | none => none
      | some kept =>
        if kept.isEmpty then some none else laterRounds C P n ⟨traj, kept⟩

/-- Body of the loop over the points of one trajectory (lines 231-236). -/
def pathStep (tj : Trajectory) (poses : List (Int × Int)) (i : Nat) :
    Option (List (Int × Int)) :=
  match tj.x_[i]?, tj.y_[i]? with
  | some x, some y => some (poses ++ [(x, y)])
  | _, _ => none

/-- Lines 230-237: the points of the visualization path. -/
def pathPoints (trajectories : List Trajectory) : Option (List (Int × Int)) :=
  trajectories.foldlM
    (fun poses tj => (List.range' 0 tj.num_points_.toNat).foldlM (pathStep tj) poses) []

/-- Body of the final scan (lines 241-242). -/
def scanStep (best_traj traj : Trajectory) : Trajectory :=
  if best_traj.cost_ > traj.cost_ then traj else best_traj

/-- Lines 239-243: `best_traj = trajectories[0]` followed by the linear scan. -/
def lowestCost (trajectories : List Trajectory) : Option Trajectory :=
  match trajectories[0]? with
  | none => none
  | some t0 => some (trajectories.foldl scanStep t0)

/-- What a successful `computeBestTrajectory` leaves behind: the published path, the output
parameter `best_traj`, the final value of the local `trajectories` (`kept`) and the
candidate list of the last round before pruning (`collected`). -/
structure SearchResult where
  collected : List Trajectory
  kept : List Trajectory
  path : List (Int × Int)
  best_traj : Trajectory
deriving DecidableEq, Repr

/-- `XDWALocalPlanner::computeBestTrajectory`; `vx vy w` is `odom_->twist.twist` and `pose`
is `pose_`. The outer `none` is an out-of-bounds access, `some none` is `return false` and
`some (some r)` is `return true`. -/
def computeBestTrajectory (C : Collaborators) (P : Planner) (vx vy w : Int) (pose : Pose) :
    Option (Option SearchResult) :=
  let trajectories := firstRound C P vx vy w pose
  if trajectories.isEmpty then some none
  else
    match getBestTrajectories P.num_best_traj_ trajectories with
    | none => none
    | some kept =>
      match laterRounds C P (P.depth_ - 1).toNat ⟨trajectories, kept⟩ with
      | none => none
      | some none => some none
      | some (some f) =>
        match pathPoints f.trajectories, lowestCost f.trajectories with
        | some path, some best => some (some ⟨f.collected, f.trajectories, path, best⟩)
        | _, _ => none

/-! ## computeTwist (lines 82-123) -/

/-- Where the thread running `computeTwist` stands: in the first `while` loop, at the test
of the second `while` loop, returned, or stopped by an out-of-bounds access. -/
inductive Phase where
  | awaitingLocalizableGoal
  | tracking
  | terminated
  | fault
deriving DecidableEq, Repr

/-- The variables `computeTwist` works on, and the commands published on `cmd_vel_pub_` so
far. -/
structure LoopState where
  phase : Phase
  goal_ : Pose
  pose_ : Pose
  published : List Velocity
deriving DecidableEq, Repr

/-- What one iteration reads from outside the thread: the flag `compute_twist_stop_` (set
by the goal callback), the outcome of the transform lookup of `getLocalGoal` (the goal in
the global frame, or a failure), the latest odometry `odom_` (pose and twist; an odometry
message is assumed to have arrived) and the outcome of the transform lookup of
`getRobotPose`. -/
structure Observation where
  compute_twist_stop_ : Bool
  localGoal : Option Pose
  odomPose : Pose
  odomTwist : Velocity
  robotPose : Option Pose
deriving DecidableEq, Repr

/-- `XDWALocalPlanner::goalReached` (lines 173-176): `hypot(dx, dy) < xy_goal_tolerance_`,
over exact arithmetic: the tolerance is positive and the squared distance is below its
square. -/
def goalReached (P : Planner) (s : LoopState) : Bool :=
  decide (0 < P.xy_goal_tolerance_ ∧
    (s.goal_.x - s.pose_.x) ^ 2 + (s.goal_.y - s.pose_.y) ^ 2 < P.xy_goal_tolerance_ ^ 2)

/-- Lines 98-107 of the loop body: run the search and publish the first velocity of the
best trajectory. -/
def planAndPublish (C : Collaborators) (P : Planner) (s : LoopState) (twist : Velocity) :
    LoopState :=
  match computeBestTrajectory C P twist.x twist.y twist.theta s.pose_ with
  | none => { s with phase := Phase.fault }
  | some none => s
  | some (some r) =>
    match r.best_traj.vel_x_[0]?, r.best_traj.vel_y_[0]?, r.best_traj.vel_theta_[0]? with
    | some vx, some vy, some w => { s with published := s.published ++ [⟨vx, vy, w⟩] }
    | _, _, _ => { s with phase := Phase.fault }

/-- One evaluation of a loop test of `computeTwist` together with the loop body that
follows it. In the first loop (line 84) the test is `getLocalGoal()`; in the second loop
(line 88) the test is `goalReached()`, then the body checks `compute_twist_stop_`
(line 89), takes the odometry pose, calls `getRobotPose()` and plans. -/
def computeTwistStep (C : Collaborators) (P : Planner) (s : LoopState) (o : Observation) :
    LoopState :=
  match s.phase with
  | Phase.awaitingLocalizableGoal =>
    match o.localGoal with
    | none => s
    | some g => { s with goal_ := g, phase := Phase.tracking }
  | Phase.tracking =>
    if goalReached P s then
      { s with published := s.published ++ [⟨0, 0, 0⟩], phase := Phase.terminated }
    else if o.compute_twist_stop_ then { s with phase := Phase.terminated }
    else
      match o.robotPose with
      | none => { s with pose_ := o.odomPose }
      | some p => planAndPublish C P { s with pose_ := p } o.odomTwist
  | Phase.terminated => s
  | Phase.fault => s

/-- The thread of `computeTwist` driven through a sequence of observations. -/
def computeTwist (C : Collaborators) (P : Planner) (s : LoopState) (os : List Observation) :
    LoopState :=
  os.foldl (computeTwistStep C P) s

/-! ## Concrete data used in the examples -/

/-- The members as the constructor initialises them (lines 8-26). -/
def defaultPlanner : Planner :=
  { depth_ := 1, num_best_traj_ := 10, num_steps_ := 50, sim_time_ := 3,
    xy_goal_tolerance_ := 1 }

/-- A small generator and scorer: two samples per call, a generator that appends one point,
and a scorer that accepts the trajectories of round 0 (cost: the sampled speed) and rejects
every longer one. -/
def demoCollaborators : Collaborators :=
  { generateSamples := fun vx vy w => [⟨vx + 1, vy, w⟩, ⟨vx, vy, w⟩]
    generateTrajectory := fun v x y th _ _ tj =>
      some { tj with
        num_points_ := tj.num_points_ + 1
        x_ := tj.x_ ++ [x + v.x], y_ := tj.y_ ++ [y + v.y], theta_ := tj.theta_ ++ [th],
        vel_x_ := tj.vel_x_ ++ [v.x], vel_y_ := tj.vel_y_ ++ [v.y],
        vel_theta_ := tj.vel_theta_ ++ [v.theta] }
    getTrajectoryScore := fun tj =>
      { tj with cost_ := if tj.num_points_ ≤ 1 then (tj.vel_x_.getLastD 0) else -1 } }

/-- A trajectory with the given cost and a tag in `num_points_` (test data). -/
def mkTraj (cost tag : Int) : Trajectory :=
  ⟨cost, tag, tag, [], [], [], [], [], []⟩

/-- The same generator with a scorer that accepts every trajectory (cost: the last sampled
speed). -/
def acceptingCollaborators : Collaborators :=
  { demoCollaborators with
    getTrajectoryScore := fun tj => { tj with cost_ := tj.vel_x_.getLastD 0 } }

/-- Two rounds with beam width 2. -/
def deepPlanner : Planner :=
  { depth_ := 2, num_best_traj_ := 2, num_steps_ := 50, sim_time_ := 3,
    xy_goal_tolerance_ := 1 }

/-- The round-0 trajectory `demoCollaborators` builds from the origin for speed `v`. -/
def demoTraj (v : Int) : Trajectory :=
  ⟨v, 1, 1, [v], [0], [0], [v], [0], [0]⟩

/-- The result of the search with `demoCollaborators` and `defaultPlanner` from rest at the
origin. -/
def demoResult : SearchResult :=
  ⟨[demoTraj 1, demoTraj 0], [demoTraj 1, demoTraj 0], [(1, 0), (0, 0)], demoTraj 0⟩

/-- Invariant of the seeding loop after `i` iterations. -/
def SeedInv (ts : List Trajectory) (c0 : Int) (i : Nat) (s : SelState) : Prop :=
  s.best_traj = ts.take i ∧ (∀ b ∈ s.best_traj, b.cost_ ≤ s.max_cost) ∧
  (i = 0 → s.max_cost = c0 ∧ s.index = 0) ∧
  (0 < i → ∃ b, s.best_traj[s.index]? = some b ∧ b.cost_ = s.max_cost)

/-- Invariant of the replacement loop once `i` input positions have been looked at: `idx`
lists, slot by slot, the input position each kept trajectory was taken from. -/
def KeptInv (ts : List Trajectory) (n i : Nat) (s : SelState) (idx : List Nat) : Prop :=
  idx.length = n ∧ s.best_traj.length = n ∧ idx.Nodup ∧ (∀ j ∈ idx, j < i) ∧
  (∀ k, k < n → ∃ b j, s.best_traj[k]? = some b ∧ idx[k]? = some j ∧ ts[j]? = some b) ∧
  (∀ b ∈ s.best_traj, b.cost_ ≤ s.max_cost) ∧
  (∃ b, s.best_traj[s.index]? = some b ∧ b.cost_ = s.max_cost) ∧
  (∀ j, j < i → j ∉ idx → ∀ t, ts[j]? = some t → s.max_cost ≤ t.cost_)

/-! ## Loop rules -/

/-- Hoare rule for a counted loop in the `Option` monad: an invariant that holds on entry
and is re-established by every iteration holds on exit, and the loop does not fail. -/
theorem foldlM_range'_inv {σ : Type} (step : σ → Nat → Option σ) (Inv : Nat → σ → Prop) :
    ∀ (n a : Nat) (s : σ), Inv a s →
      (∀ i s, a ≤ i → i < a + n → Inv i s → ∃ s', step s i = some s' ∧ Inv (i + 1) s') →
      ∃ s', (List.range' a n).foldlM step s = some s' ∧ Inv (a + n) s' := by
  intro n
  induction n with
  | zero => intro a s h _; exact ⟨s, by simp [List.range'], by simpa using h⟩
  | succ n ih =>
    intro a s h hstep
    obtain ⟨s1, hs1, hinv1⟩ := hstep a s (Nat.le_refl _) (by omega) h
    obtain ⟨s2, hs2, hinv2⟩ := ih (a + 1) s1 hinv1
      (fun i s hi hlt hI => hstep i s (by omega) (by omega) hI)
    refine ⟨s2, ?_, ?_⟩
    · simp [List.range'_succ, List.foldlM_cons, hs1, hs2]
    · have : a + (n + 1) = a + 1 + n := by omega
      rw [this]; exact hinv2

/-- Two loop bodies that agree on every counter value of the loop give the same loop. -/
theorem foldlM_congr_mem {σ : Type} (f g : σ → Nat → Option σ) :
    ∀ (l : List Nat) (s : σ), (∀ i ∈ l, ∀ s, f s i = g s i) →
      l.foldlM f s = l.foldlM g s := by
  intro l
  induction l with
  | nil => intro s _; rfl
  | cons a l ih =>
    intro s h
    simp only [List.foldlM_cons]
    rw [h a (List.mem_cons_self _ _) s]
    cases hg : g s a with
    | none => rfl
    | some s1 =>
      simp only [Option.some_bind, Option.bind_eq_bind]
      exact ih s1 (fun i hi s => h i (List.mem_cons_of_mem _ hi) s)

/-- The seeding loop over the first `n ≤ N` positions stays in bounds and establishes its
invariant. -/
theorem seed_loop (ts : List Trajectory) (t0 : Trajectory) (h0 : ts[0]? = some t0)
    (n : Nat) (hn : n ≤ ts.length) :
    ∃ s1, (List.range' 0 n).foldlM (seedStep ts) ⟨[], t0.cost_, 0⟩ = some s1 ∧
      SeedInv ts t0.cost_ n s1 := by
  have := foldlM_range'_inv (seedStep ts) (SeedInv ts t0.cost_) n 0 ⟨[], t0.cost_, 0⟩
    (by simp [SeedInv]) ?_
  · simpa using this
  · intro i s _ hi ⟨hb, hle, hz, hp⟩
    have hlt : i < ts.length := by omega
    have hti : ts[i]? = some ts[i] := List.getElem?_eq_getElem hlt
    have hlen : s.best_traj.length = i := by simp [hb]; omega
    simp only [seedStep, hti]
    by_cases hc : ts[i].cost_ > s.max_cost
    · simp only [hc, if_true]
      refine ⟨_, rfl, ?_, ?_, by omega, ?_⟩
      · show s.best_traj ++ [ts[i]] = List.take (i + 1) ts
        rw [hb, List.take_succ, hti]; rfl
      · intro b hbm
        simp only [List.mem_append, List.mem_singleton] at hbm
        rcases hbm with h | h
        · have := hle b h; simp only; omega
        · subst h; simp
      · intro _
        refine ⟨ts[i], ?_, rfl⟩
        simp only
        rw [List.getElem?_append_right (by omega)]
        simp [hlen]
    · simp only [hc, if_false]
      refine ⟨_, rfl, ?_, ?_, by omega, ?_⟩
      · show s.best_traj ++ [ts[i]] = List.take (i + 1) ts
        rw [hb, List.take_succ, hti]; rfl
      · intro b hbm
        simp only [List.mem_append, List.mem_singleton] at hbm
        rcases hbm with h | h
        · exact hle b h
        · subst h; simp only; omega
      · intro _
        rcases Nat.eq_zero_or_pos i with hi0 | hi0
        · obtain ⟨hm, hix⟩ := hz hi0
          subst hi0
          refine ⟨t0, ?_, hm.symm⟩
          simp only [hix]
          have : s.best_traj = [] := by simpa using hb
          rw [this]
          simp only [h0] at hti
          simp [hti]
        · obtain ⟨b, hb1, hb2⟩ := hp hi0
          refine ⟨b, ?_, hb2⟩
          simp only
          have : s.index < s.best_traj.length := by
            rcases List.getElem?_eq_some.1 hb1 with ⟨h, _⟩; exact h
          rw [List.getElem?_append_left this]; exact hb1

/-- The rescan of a non-empty kept set of `num_best_traj` slots stays in bounds and
returns the maximum cost together with a slot that attains it. -/
theorem rescan_spec (best : List Trajectory) (nb : Int) (hlen : best.length = nb.toNat)
    (hpos : 1 ≤ nb.toNat) :
    ∃ m ix, rescan best nb = some (m, ix) ∧ (∀ b ∈ best, b.cost_ ≤ m) ∧
      ∃ b, best[ix]? = some b ∧ b.cost_ = m := by
  have h0lt : 0 < best.length := by omega
  have hb0 : best[0]? = some best[0] := List.getElem?_eq_getElem h0lt
  have := foldlM_range'_inv (rescanStep best)
    (fun j (p : Int × Nat) => (∀ k, k < j → ∀ b, best[k]? = some b → b.cost_ ≤ p.1) ∧
      ∃ b, best[p.2]? = some b ∧ b.cost_ = p.1)
    (nb.toNat - 1) 1 (best[0].cost_, 0) ?_ ?_
  · obtain ⟨⟨m, ix⟩, hrun, hall, hatt⟩ := this
    refine ⟨m, ix, ?_, ?_, hatt⟩
    · simp only [rescan, hb0]; exact hrun
    · intro b hb
      obtain ⟨k, hk⟩ := List.mem_iff_getElem?.1 hb
      have hkl : k < best.length := (List.getElem?_eq_some.1 hk).1
      exact hall k (by omega) b hk
  · refine ⟨?_, best[0], hb0, rfl⟩
    intro k hk b hbk
    have : k = 0 := by omega
    subst this
    rw [hb0] at hbk
    cases hbk; exact Int.le_refl _
  · intro j p _ hj ⟨hall, hatt⟩
    have hjl : j < best.length := by omega
    have hbj : best[j]? = some best[j] := List.getElem?_eq_getElem hjl
    simp only [rescanStep, hbj]
    by_cases hc : best[j].cost_ > p.1
    · simp only [hc, if_true]
      refine ⟨_, rfl, ?_, best[j], hbj, rfl⟩
      intro k hk b hbk
      rcases Nat.lt_succ_iff_lt_or_eq.1 hk with h | h
      · have := hall k h b hbk; simp only; omega
      · subst h; rw [hbj] at hbk; cases hbk; exact Int.le_refl _
    · simp only [hc, if_false]
      refine ⟨_, rfl, ?_, hatt⟩
      intro k hk b hbk
      rcases Nat.lt_succ_iff_lt_or_eq.1 hk with h | h
      · exact hall k h b hbk
      · subst h; rw [hbj] at hbk; cases hbk; omega

/-- The seeding loop establishes the invariant with the identity assignment of slots. -/
theorem keptInv_of_seed (ts : List Trajectory) (c0 : Int) (n : Nat) (s : SelState)
    (hn : n ≤ ts.length) (hpos : 1 ≤ n) (h : SeedInv ts c0 n s) :
    KeptInv ts n n s (List.range n) := by
  obtain ⟨hb, hle, _, hp⟩ := h
  refine ⟨by simp, by simp [hb]; omega, List.nodup_range n, ?_, ?_, hle, hp (by omega), ?_⟩
  · intro j hj; exact List.mem_range.1 hj
  · intro k hk
    have hkl : k < ts.length := by omega
    refine ⟨ts[k], k, ?_, List.getElem?_range hk, List.getElem?_eq_getElem hkl⟩
    rw [hb, List.getElem?_take, if_pos hk]; exact List.getElem?_eq_getElem hkl
  · intro j hj hnot; exact absurd (List.mem_range.2 hj) hnot

/-- One iteration of the replacement loop preserves the invariant. -/
theorem replaceStep_inv (ts : List Trajectory) (nb : Int) (hpos : 1 ≤ nb.toNat)
    (i : Nat) (hi : i < ts.length) (s : SelState) (idx : List Nat)
    (h : KeptInv ts nb.toNat i s idx) :
    ∃ s' idx', replaceStep ts nb s i = some s' ∧ KeptInv ts nb.toNat (i + 1) s' idx' := by
  obtain ⟨hil, hbl, hnd, hlt, hrel, hle, ⟨bm, hbm, hbmc⟩, hexc⟩ := h
  have hti : ts[i]? = some ts[i] := List.getElem?_eq_getElem hi
  have hnot : i ∉ idx := fun hmem => absurd (hlt i hmem) (Nat.lt_irrefl _)
  simp only [replaceStep, hti]
  by_cases hc : ts[i].cost_ < s.max_cost
  · have hix : s.index < s.best_traj.length := (List.getElem?_eq_some.1 hbm).1
    simp only [hc, if_true, hix]
    obtain ⟨m, ix, hres, hall, hatt⟩ := rescan_spec (s.best_traj.set s.index ts[i]) nb
      (by simp [hbl]) hpos
    simp only [hres]
    have hm : m ≤ s.max_cost := by
      obtain ⟨b, hb1, hb2⟩ := hatt
      have hbmem : b ∈ s.best_traj.set s.index ts[i] := List.mem_iff_getElem?.2 ⟨ix, hb1⟩
      rcases List.mem_or_eq_of_mem_set hbmem with h | h
      · have := hle b h; omega
      · subst h; omega
    refine ⟨_, idx.set s.index i, rfl, by simp [hil], by simp [hbl], hnd.set hnot, ?_, ?_,
      hall, hatt, ?_⟩
    · intro j hj
      rcases List.mem_or_eq_of_mem_set hj with h | h
      · have := hlt j h; omega
      · omega
    · intro k hk
      simp only [List.getElem?_set]
      by_cases hik : s.index = k
      · have h1 : s.index < idx.length := by omega
        simp only [hik, if_true]
        subst hik
        simp only [hix, h1, if_true]
        exact ⟨ts[i], i, rfl, rfl, hti⟩
      · simp only [hik, if_false]
        exact hrel k hk
    · intro j hj hjn t htj
      simp only
      by_cases hji : j = i
      · exfalso; apply hjn; subst hji
        exact List.mem_set _ _ (by omega) _
      · by_cases hjm : j ∈ idx
        · -- `j` was the position held in the evicted slot
          obtain ⟨k, hk⟩ := List.mem_iff_getElem?.1 hjm
          have hkl : k < idx.length := (List.getElem?_eq_some.1 hk).1
          have hks : k = s.index := by
            by_contra hne
            apply hjn
            refine List.mem_iff_getElem?.2 ⟨k, ?_⟩
            rw [List.getElem?_set_ne (Ne.symm hne)]; exact hk
          subst hks
          obtain ⟨b, j2, hb1, hj1, hj2⟩ := hrel s.index (by omega)
          rw [hk] at hj1; cases hj1
          rw [htj] at hj2; cases hj2
          rw [hbm] at hb1; cases hb1
          omega
        · have := hexc j (by omega) hjm t htj; omega
  · simp only [hc, if_false]
    refine ⟨s, idx, rfl, hil, hbl, hnd, fun j hj => Nat.lt_succ_of_lt (hlt j hj), hrel, hle,
      ⟨bm, hbm, hbmc⟩, ?_⟩
    intro j hj hjn t htj
    rcases Nat.lt_succ_iff_lt_or_eq.1 hj with h | h
    · exact hexc j h hjn t htj
    · subst h; rw [hti] at htj; cases htj; omega

/-- Both loops of the selector on a non-empty input with beam width at least one: they
stay in bounds and end in a state that satisfies the invariant for the whole input. -/
theorem selectorLoops_spec (K : Int) (ts : List Trajectory) (hK : 1 ≤ K) (hne : ts ≠ []) :
    ∃ s idx, selectorLoops K ts = some s ∧
      KeptInv ts (min K.toNat ts.length) ts.length s idx ∧
      (ts.length ≤ K.toNat → s.best_traj = ts) := by
  have hlen : 0 < ts.length := List.length_pos.2 hne
  have h0 : ts[0]? = some ts[0] := List.getElem?_eq_getElem hlen
  have hnb : (min K (ts.length : Int)).toNat = min K.toNat ts.length := by omega
  have hnn : ¬ (min K (ts.length : Int) < 0) := by omega
  have hpos : 1 ≤ (min K (ts.length : Int)).toNat := by omega
  obtain ⟨s1, hs1, hseed⟩ := seed_loop ts ts[0] h0 (min K.toNat ts.length) (by omega)
  have hk1 := keptInv_of_seed ts ts[0].cost_ (min K.toNat ts.length) s1 (by omega) (by omega)
    hseed
  have hrun := foldlM_range'_inv (replaceStep ts (min K (ts.length : Int)))
    (fun i s => (∃ idx, KeptInv ts (min K.toNat ts.length) i s idx) ∧
      (ts.length ≤ K.toNat → s.best_traj = ts))
    (ts.length - min K.toNat ts.length) (min K.toNat ts.length) s1
    ⟨⟨_, hk1⟩, fun h => by rw [hseed.1, Nat.min_eq_right h, List.take_length]⟩ ?_
  · obtain ⟨s2, hs2, ⟨idx, hinv⟩, hall⟩ := hrun
    have hsum : min K.toNat ts.length + (ts.length - min K.toNat ts.length) = ts.length := by
      omega
    rw [hsum] at hinv
    refine ⟨s2, idx, ?_, hinv, hall⟩
    simp only [selectorLoops, h0, hnb, hs1, hnn, if_false]
    exact hs2
  · intro i s hi1 hi2 ⟨⟨idx, hinv⟩, _⟩
    rw [← hnb] at hinv
    obtain ⟨s3, idx3, hstep, hinv3⟩ := replaceStep_inv ts (min K (ts.length : Int)) hpos i
      (by omega) s idx hinv
    rw [hnb] at hinv3
    exact ⟨s3, hstep, ⟨idx3, hinv3⟩, fun h => by omega⟩

/-- The kept trajectories, read slot by slot, are the input trajectories at the positions
listed in `idx`. -/
theorem kept_eq_map (ts : List Trajectory) (n i : Nat) (s : SelState) (idx : List Nat)
    (h : KeptInv ts n i s idx) :
    s.best_traj.map some = idx.map (fun j => ts[j]?) := by
  obtain ⟨hil, hbl, _, _, hrel, _⟩ := h
  apply List.ext_getElem?
  intro k
  simp only [List.getElem?_map]
  by_cases hk : k < n
  · obtain ⟨b, j, h1, h2, h3⟩ := hrel k hk
    simp [h1, h2, h3]
  · rw [List.getElem?_eq_none (by omega), List.getElem?_eq_none (by omega)]; rfl

/-! ## The selector: claims C1, C2, C4, C9 -/

/-- C1: for a non-empty input of N trajectories and a beam width K ≥ 1,
`getBestTrajectories` returns exactly min(K, N) trajectories, taken from pairwise distinct
input positions `idx`; every input position that is not among them holds a trajectory whose
cost is at least the cost of every returned one; and for K ≥ N every input trajectory is
returned. -/
theorem getBestTrajectories_lowest (K : Int) (ts : List Trajectory) (hK : 1 ≤ K)
    (hne : ts ≠ []) :
    ∃ (out : List Trajectory) (idx : List Nat), getBestTrajectories K ts = some out ∧
      out.length = min K.toNat ts.length ∧
      idx.Nodup ∧ (∀ j ∈ idx, j < ts.length) ∧
      out.map some = idx.map (fun j => ts[j]?) ∧
      (∀ j, j < ts.length → j ∉ idx → ∀ t, ts[j]? = some t → ∀ b ∈ out, b.cost_ ≤ t.cost_) ∧
      (ts.length ≤ K.toNat → ∀ t ∈ ts, t ∈ out) := by
  obtain ⟨s, idx, hrun, hinv, hall⟩ := selectorLoops_spec K ts hK hne
  have hmap := kept_eq_map ts _ _ s idx hinv
  obtain ⟨_, hbl, hnd, hlt, _, hle, _, hexc⟩ := hinv
  refine ⟨s.best_traj, idx, by simp [getBestTrajectories, hrun], hbl, hnd, hlt, hmap, ?_, ?_⟩
  · intro j hj hjn t htj b hb
    have h1 := hexc j hj hjn t htj
    have h2 := hle b hb
    omega
  · intro h t ht; rw [hall h]; exact ht

/-- Witness for C1: beam width 2 on three trajectories. -/
theorem getBestTrajectories_lowest_witness :
    ∃ (out : List Trajectory) (idx : List Nat), getBestTrajectories 2 [mkTraj 5 0, mkTraj 5 1, mkTraj 3 2] = some out ∧
      out.length = min (2 : Int).toNat [mkTraj 5 0, mkTraj 5 1, mkTraj 3 2].length ∧
      idx.Nodup ∧ (∀ j ∈ idx, j < [mkTraj 5 0, mkTraj 5 1, mkTraj 3 2].length) ∧
      out.map some = idx.map (fun j => [mkTraj 5 0, mkTraj 5 1, mkTraj 3 2][j]?) ∧
      (∀ j, j < [mkTraj 5 0, mkTraj 5 1, mkTraj 3 2].length → j ∉ idx →
        ∀ t, [mkTraj 5 0, mkTraj 5 1, mkTraj 3 2][j]? = some t → ∀ b ∈ out, b.cost_ ≤ t.cost_) ∧
      ([mkTraj 5 0, mkTraj 5 1, mkTraj 3 2].length ≤ (2 : Int).toNat →
        ∀ t ∈ [mkTraj 5 0, mkTraj 5 1, mkTraj 3 2], t ∈ out) :=
  getBestTrajectories_lowest 2 [mkTraj 5 0, mkTraj 5 1, mkTraj 3 2] (by decide) (by decide)

/-- C2, as stated, fails: with beam width 2 on costs 5, 5, 3 the two trajectories of cost 5
are at positions 0 and 1, exactly one of them is returned, and it is the later one. -/
theorem tie_break_counterexample :
    getBestTrajectories 2 [mkTraj 5 0, mkTraj 5 1, mkTraj 3 2] =
        some [mkTraj 3 2, mkTraj 5 1] ∧
      (mkTraj 5 0).cost_ = (mkTraj 5 1).cost_ ∧
      mkTraj 5 0 ∉ [mkTraj 3 2, mkTraj 5 1] ∧ mkTraj 5 1 ∈ [mkTraj 3 2, mkTraj 5 1] := by
  decide

/-- C2 (amended): ties are broken in favour of the kept trajectories when a new trajectory
is encountered. If the kept set is full (at least K ≥ 1 trajectories came before) and the
next trajectory `t` costs as much as the costliest kept one, or more, then the selector
returns for `ts ++ [t]` exactly what it returns for `ts`: `t` is not admitted and nothing
is evicted. -/
theorem tie_not_admitted (K : Int) (ts : List Trajectory) (t : Trajectory)
    (out : List Trajectory) (hK : 1 ≤ K) (hfull : K.toNat ≤ ts.length)
    (hout : getBestTrajectories K ts = some out) (htie : ∀ b ∈ out, b.cost_ ≤ t.cost_) :
    getBestTrajectories K (ts ++ [t]) = some out := by
  have hlen : 0 < ts.length := by omega
  have hne : ts ≠ [] := List.length_pos.1 hlen
  have h0 : ts[0]? = some ts[0] := List.getElem?_eq_getElem hlen
  have h0a : (ts ++ [t])[0]? = some ts[0] := by rw [List.getElem?_append_left hlen]; exact h0
  have hmin : min K (ts.length : Int) = K := by omega
  have hmina : min K ((ts ++ [t]).length : Int) = K := by
    simp only [List.length_append, List.length_singleton]; omega
  have hnn : ¬ (K < 0) := by omega
  obtain ⟨s1, hs1, _⟩ := seed_loop ts ts[0] h0 K.toNat hfull
  obtain ⟨s, idx, hrun, hinv, _⟩ := selectorLoops_spec K ts hK hne
  have hbest : s.best_traj = out := by
    simpa [getBestTrajectories, hrun] using hout
  obtain ⟨_, _, _, _, _, _, ⟨bm, hbm, hbmc⟩, _⟩ := hinv
  have hmax : s.max_cost ≤ t.cost_ := by
    have := htie bm (hbest ▸ List.mem_iff_getElem?.2 ⟨_, hbm⟩); omega
  simp only [selectorLoops, h0, hmin, hs1, hnn, if_false] at hrun
  have hseed : (List.range' 0 K.toNat).foldlM (seedStep (ts ++ [t])) ⟨[], ts[0].cost_, 0⟩
      = some s1 := by
    rw [← hs1]
    apply foldlM_congr_mem
    intro i hi st
    have hil : i < ts.length := by
      have := List.mem_range'_1.1 hi; omega
    simp only [seedStep, List.getElem?_append_left hil]
  have hsplit : (ts ++ [t]).length - K.toNat = (ts.length - K.toNat) + 1 := by
    simp only [List.length_append, List.length_singleton]; omega
  have hlast : K.toNat + 1 * (ts.length - K.toNat) = ts.length := by omega
  have hbody : (List.range' K.toNat (ts.length - K.toNat)).foldlM
      (replaceStep (ts ++ [t]) K) s1 = some s := by
    rw [← hrun]
    apply foldlM_congr_mem
    intro i hi st
    have hil : i < ts.length := by
      have := List.mem_range'_1.1 hi; omega
    simp only [replaceStep, List.getElem?_append_left hil]
  have hnew : (ts ++ [t])[ts.length]? = some t := by
    rw [List.getElem?_append_right (Nat.le_refl _)]; simp
  have hstep : replaceStep (ts ++ [t]) K s ts.length = some s := by
    have hc : ¬ (t.cost_ < s.max_cost) := by omega
    simp only [replaceStep, hnew, hc, if_false]
  simp only [getBestTrajectories, selectorLoops, h0a, hmina, hseed, hnn, if_false, hsplit,
    List.range'_concat, hlast, List.foldlM_append, hbody, Option.bind_eq_bind,
    Option.some_bind, List.foldlM_cons, List.foldlM_nil, hstep]
  exact congrArg some hbest

/-- Witness for C2 (amended): after costs 7, 5 with beam width 2, a third trajectory of
cost 7 ties the costliest kept one and is not admitted. -/
theorem tie_not_admitted_witness :
    getBestTrajectories 2 ([mkTraj 7 0, mkTraj 5 1] ++ [mkTraj 7 2]) =
      some [mkTraj 7 0, mkTraj 5 1] :=
  tie_not_admitted 2 [mkTraj 7 0, mkTraj 5 1] (mkTraj 7 2) [mkTraj 7 0, mkTraj 5 1]
    (by decide) (by decide) (by decide) (by decide)

/-- With no slot to write to, the replacement loop fails at the first trajectory that is
cheaper than the tracked cost. -/
theorem replace_no_slot_fails (ts : List Trajectory) (c0 : Int) :
    ∀ (l : List Nat), (∃ i ∈ l, ∃ t, ts[i]? = some t ∧ t.cost_ < c0) →
      l.foldlM (replaceStep ts 0) ⟨[], c0, 0⟩ = none := by
  intro l
  induction l with
  | nil => intro ⟨i, hi, _⟩; cases hi
  | cons a l ih =>
    intro ⟨i, hi, t, hti, hlt⟩
    simp only [List.foldlM_cons]
    cases hta : ts[a]? with
    | none => simp [replaceStep, hta]
    | some ta =>
      by_cases hc : ta.cost_ < c0
      · simp [replaceStep, hta, hc]
      · have hstep : replaceStep ts 0 ⟨[], c0, 0⟩ a = some ⟨[], c0, 0⟩ := by
          simp [replaceStep, hta, hc]
        rw [hstep]
        simp only [Option.bind_eq_bind, Option.some_bind]
        apply ih
        rcases List.mem_cons.1 hi with h | h
        · subst h; rw [hta] at hti; cases hti; exact absurd hlt hc
        · exact ⟨i, h, t, hti, hlt⟩

/-- With no slot to write to, the replacement loop runs through when no trajectory is
cheaper than the tracked cost. -/
theorem replace_no_slot_ok (ts : List Trajectory) (c0 : Int) :
    ∀ (l : List Nat), (∀ i ∈ l, ∃ t, ts[i]? = some t ∧ c0 ≤ t.cost_) →
      l.foldlM (replaceStep ts 0) ⟨[], c0, 0⟩ = some ⟨[], c0, 0⟩ := by
  intro l
  induction l with
  | nil => intro _; rfl
  | cons a l ih =>
    intro h
    obtain ⟨t, hta, hle⟩ := h a (List.mem_cons_self _ _)
    have hc : ¬ (t.cost_ < c0) := by omega
    have hstep : replaceStep ts 0 ⟨[], c0, 0⟩ a = some ⟨[], c0, 0⟩ := by
      simp [replaceStep, hta, hc]
    simp only [List.foldlM_cons, hstep, Option.bind_eq_bind, Option.some_bind]
    exact ih (fun i hi => h i (List.mem_cons_of_mem _ hi))

/-- C4 (amended): for a non-empty input of N trajectories and a beam width K ≥ 0,
`getBestTrajectories` stays in bounds and returns min(K, N) trajectories exactly when
K ≥ 1, or K = 0 and no trajectory is cheaper than the first one; for K = 0 and a trajectory
cheaper than the first one it writes to slot 0 of the empty kept set. -/
theorem getBestTrajectories_in_bounds_iff (K : Int) (ts : List Trajectory) (hK : 0 ≤ K)
    (hne : ts ≠ []) :
    (∃ out, getBestTrajectories K ts = some out ∧ out.length = min K.toNat ts.length) ↔
      (1 ≤ K ∨ ∀ t ∈ ts, (ts.head hne).cost_ ≤ t.cost_) := by
  have hlen : 0 < ts.length := List.length_pos.2 hne
  have h0 : ts[0]? = some (ts.head hne) := by
    cases ts with
    | nil => exact absurd rfl hne
    | cons a l => simp
  by_cases h1 : 1 ≤ K
  · simp only [h1, true_or, iff_true]
    obtain ⟨s, idx, hrun, hinv, _⟩ := selectorLoops_spec K ts h1 hne
    exact ⟨s.best_traj, by simp [getBestTrajectories, hrun], hinv.2.1⟩
  · have hK0 : K = 0 := by omega
    subst hK0
    have hmin : min (0 : Int) (ts.length : Int) = 0 := by omega
    have hrun : selectorLoops 0 ts =
        (List.range' 0 ts.length).foldlM (replaceStep ts 0) ⟨[], (ts.head hne).cost_, 0⟩ := by
      simp [selectorLoops, h0, hmin]
    simp only [h1, false_or]
    constructor
    · intro ⟨out, hout, _⟩ t ht
      by_contra hlt
      obtain ⟨i, hi⟩ := List.mem_iff_getElem?.1 ht
      have hil : i < ts.length := (List.getElem?_eq_some.1 hi).1
      have := replace_no_slot_fails ts (ts.head hne).cost_ (List.range' 0 ts.length)
        ⟨i, List.mem_range'_1.2 ⟨by omega, by omega⟩, t, hi, by omega⟩
      rw [getBestTrajectories, hrun, this] at hout
      cases hout
    · intro hall
      have := replace_no_slot_ok ts (ts.head hne).cost_ (List.range' 0 ts.length) ?_
      · refine ⟨[], ?_, by simp⟩
        rw [getBestTrajectories, hrun, this]; rfl
      · intro i hi
        have hil : i < ts.length := by
          have := List.mem_range'_1.1 hi; omega
        exact ⟨ts[i], List.getElem?_eq_getElem hil, hall _ (List.getElem_mem _)⟩

/-- Witness for C4 (amended): beam width 0 on costs 5, 7 returns the empty list. -/
theorem getBestTrajectories_in_bounds_iff_witness :
    (∃ out, getBestTrajectories 0 [mkTraj 5 0, mkTraj 7 1] = some out ∧
        out.length = min (0 : Int).toNat [mkTraj 5 0, mkTraj 7 1].length) ↔
      (1 ≤ (0 : Int) ∨ ∀ t ∈ [mkTraj 5 0, mkTraj 7 1],
        ([mkTraj 5 0, mkTraj 7 1].head (by decide)).cost_ ≤ t.cost_) :=
  getBestTrajectories_in_bounds_iff 0 [mkTraj 5 0, mkTraj 7 1] (by decide) (by decide)

/-- C4, as stated, fails at K = 0: on costs 5, 3 the second trajectory is cheaper than the
tracked cost and the write `best_traj[0] = ...` hits an empty vector. -/
theorem zero_width_counterexample :
    [mkTraj 5 0, mkTraj 3 1] ≠ [] ∧ (0 : Int) ≥ 0 ∧
      getBestTrajectories 0 [mkTraj 5 0, mkTraj 3 1] = none ∧
      replaceStep [mkTraj 5 0, mkTraj 3 1] 0 ⟨[], 5, 0⟩ 1 = none := by
  decide

/-- C9: when all trajectories of a non-empty input have the same cost and K ≥ 1,
`getBestTrajectories` returns the first min(K, N) of them in their original order. -/
theorem getBestTrajectories_equal_costs (K : Int) (ts : List Trajectory) (c : Int)
    (hK : 1 ≤ K) (hne : ts ≠ []) (hc : ∀ t ∈ ts, t.cost_ = c) :
    getBestTrajectories K ts = some (ts.take (min K.toNat ts.length)) := by
  have hlen : 0 < ts.length := List.length_pos.2 hne
  have h0 : ts[0]? = some ts[0] := List.getElem?_eq_getElem hlen
  have hnb : (min K (ts.length : Int)).toNat = min K.toNat ts.length := by omega
  have hnn : ¬ (min K (ts.length : Int) < 0) := by omega
  obtain ⟨s1, hs1, hb, _, _, hp⟩ := seed_loop ts ts[0] h0 (min K.toNat ts.length) (by omega)
  have hmax : s1.max_cost = c := by
    obtain ⟨b, hb1, hb2⟩ := hp (by omega)
    have hmem : b ∈ s1.best_traj := List.mem_iff_getElem?.2 ⟨_, hb1⟩
    rw [hb] at hmem
    rw [← hb2]; exact hc b (List.mem_of_mem_take hmem)
  have hrun := foldlM_range'_inv (replaceStep ts (min K (ts.length : Int)))
    (fun _ s => s = s1) (ts.length - min K.toNat ts.length) (min K.toNat ts.length) s1 rfl ?_
  · obtain ⟨s2, hs2, heq⟩ := hrun
    subst heq
    simp only [getBestTrajectories, selectorLoops, h0, hnb, hs1, hnn, if_false, hs2,
      Option.map_some', hb]
  · intro i s _ hi hs
    subst hs
    have hil : i < ts.length := by omega
    have hti : ts[i]? = some ts[i] := List.getElem?_eq_getElem hil
    have hci : ¬ (ts[i].cost_ < s.max_cost) := by
      rw [hmax, hc _ (List.getElem_mem _)]; omega
    exact ⟨s, by simp only [replaceStep, hti, hci, if_false], rfl⟩

/-- Witness for C9: beam width 2 on three trajectories of cost 0. -/
theorem getBestTrajectories_equal_costs_witness :
    getBestTrajectories 2 [mkTraj 0 0, mkTraj 0 1, mkTraj 0 2] =
      some ([mkTraj 0 0, mkTraj 0 1, mkTraj 0 2].take
        (min (2 : Int).toNat [mkTraj 0 0, mkTraj 0 1, mkTraj 0 2].length)) :=
  getBestTrajectories_equal_costs 2 [mkTraj 0 0, mkTraj 0 1, mkTraj 0 2] 0
    (by decide) (by decide) (by decide)

/-! ## The lookahead search: helper lemmas -/

/-- Partial correctness of a loop over a list in the `Option` monad: a property of the
state that every successful iteration preserves holds when the loop succeeds. -/
theorem foldlM_preserves {σ α : Type} (f : σ → α → Option σ) (Q : σ → Prop)
    (hstep : ∀ s a s', Q s → f s a = some s' → Q s') :
    ∀ (l : List α) (s s' : σ), Q s → l.foldlM f s = some s' → Q s' := by
  intro l
  induction l with
  | nil => intro s s' hs h; simp only [List.foldlM_nil] at h; cases h; exact hs
  | cons a l ih =>
    intro s s' hs h
    simp only [List.foldlM_cons] at h
    cases hf : f s a with
    | none => rw [hf] at h; cases h
    | some s1 =>
      rw [hf] at h
      exact ih s1 s' (hstep s a s1 hs hf) h

/-- A property of the accumulator that every iteration preserves holds after a `foldl`. -/
theorem foldl_preserves {σ α : Type} (f : σ → α → σ) (Q : σ → Prop)
    (hstep : ∀ s a, Q s → Q (f s a)) : ∀ (l : List α) (s : σ), Q s → Q (l.foldl f s) := by
  intro l
  induction l with
  | nil => intro s hs; exact hs
  | cons a l ih => intro s hs; exact ih (f s a) (hstep s a hs)

/-- Every trajectory the selector returns is one of its inputs, for any beam width. -/
theorem getBestTrajectories_subset (K : Int) (ts out : List Trajectory)
    (h : getBestTrajectories K ts = some out) : ∀ b ∈ out, b ∈ ts := by
  have hseed : ∀ s i s', (∀ b ∈ s.best_traj, b ∈ ts) → seedStep ts s i = some s' →
      ∀ b ∈ s'.best_traj, b ∈ ts := by
    intro s i s' hs hst
    unfold seedStep at hst
    cases hti : ts[i]? with
    | none => rw [hti] at hst; cases hst
    | some t =>
      rw [hti] at hst
      have htm : t ∈ ts := List.mem_iff_getElem?.2 ⟨i, hti⟩
      have : s'.best_traj = s.best_traj ++ [t] := by
        simp only at hst
        split at hst <;> (cases hst; rfl)
      rw [this]
      intro b hb
      rcases List.mem_append.1 hb with h1 | h1
      · exact hs b h1
      · rw [List.mem_singleton.1 h1]; exact htm
  have hrep : ∀ nb s i s', (∀ b ∈ s.best_traj, b ∈ ts) → replaceStep ts nb s i = some s' →
      ∀ b ∈ s'.best_traj, b ∈ ts := by
    intro nb s i s' hs hst
    unfold replaceStep at hst
    cases hti : ts[i]? with
    | none => rw [hti] at hst; cases hst
    | some t =>
      rw [hti] at hst
      have htm : t ∈ ts := List.mem_iff_getElem?.2 ⟨i, hti⟩
      simp only at hst
      split at hst
      · split at hst
        · split at hst
          · cases hst
          · cases hst
            intro b hb
            rcases List.mem_or_eq_of_mem_set hb with h1 | h1
            · exact hs b h1
            · rw [h1]; exact htm
        · cases hst
      · cases hst; exact hs
  unfold getBestTrajectories at h
  cases hrun : selectorLoops K ts with
  | none => rw [hrun] at h; cases h
  | some s =>
    rw [hrun] at h
    simp only [Option.map_some', Option.some.injEq] at h
    subst h
    unfold selectorLoops at hrun
    simp only at hrun
    split at hrun
    · cases hrun
    · split at hrun
      · cases hrun
      · rename_i t0 _ s1 hs1
        have h1 : ∀ b ∈ s1.best_traj, b ∈ ts :=
          foldlM_preserves (seedStep ts) (fun s => ∀ b ∈ s.best_traj, b ∈ ts) hseed _ _ _
            (by intro b hb; cases hb) hs1
        split at hrun
        · cases hrun; exact h1
        · exact foldlM_preserves (replaceStep ts _) (fun s => ∀ b ∈ s.best_traj, b ∈ ts)
            (hrep _) _ _ _ h1 hrun

/-- The selector fails on an empty input: it reads `trajectories[0]`. -/
theorem getBestTrajectories_nil (K : Int) : getBestTrajectories K [] = none := by
  simp [getBestTrajectories, selectorLoops]

/-- Every input trajectory is either returned or costs at least as much as every returned
one (beam width at least one). -/
theorem selector_excluded (K : Int) (ts out : List Trajectory) (hK : 1 ≤ K)
    (h : getBestTrajectories K ts = some out) :
    ∀ c ∈ ts, c ∈ out ∨ ∀ b ∈ out, b.cost_ ≤ c.cost_ := by
  have hne : ts ≠ [] := by
    intro h0; rw [h0, getBestTrajectories_nil] at h; cases h
  obtain ⟨s, idx, hrun, hinv, _⟩ := selectorLoops_spec K ts hK hne
  have hmap := kept_eq_map ts _ _ s idx hinv
  have hbest : s.best_traj = out := by simpa [getBestTrajectories, hrun] using h
  rw [hbest] at hmap
  obtain ⟨_, _, _, _, _, hle, _, hexc⟩ := hinv
  rw [hbest] at hle
  intro c hc
  obtain ⟨j, hj⟩ := List.mem_iff_getElem?.1 hc
  have hjl : j < ts.length := (List.getElem?_eq_some.1 hj).1
  by_cases hmem : j ∈ idx
  · left
    obtain ⟨k, hk⟩ := List.mem_iff_getElem?.1 hmem
    have h1 : (List.map (fun j => ts[j]?) idx)[k]? = some (some c) := by
      simp [List.getElem?_map, hk, hj]
    rw [← hmap, List.getElem?_map] at h1
    cases hok : out[k]? with
    | none => rw [hok] at h1; cases h1
    | some b =>
      rw [hok] at h1
      simp only [Option.map_some', Option.some.injEq] at h1
      subst h1
      exact List.mem_iff_getElem?.2 ⟨k, hok⟩
  · right
    intro b hb
    have h1 := hexc j hjl hmem c hj
    have h2 := hle b hb
    omega

/-- The linear scan, started from the first-encountered minimum `b` of the part `pre`
already looked at, ends on the first-encountered minimum of the whole list. -/
theorem scan_spec : ∀ (l pre : List Trajectory) (b : Trajectory) (i : Nat),
    pre[i]? = some b → (∀ t ∈ pre, b.cost_ ≤ t.cost_) →
    (∀ j, j < i → ∀ t, pre[j]? = some t → b.cost_ < t.cost_) →
    ∃ i2 : Nat, (pre ++ l)[i2]? = some (l.foldl scanStep b) ∧
      (∀ t ∈ pre ++ l, (l.foldl scanStep b).cost_ ≤ t.cost_) ∧
      (∀ j, j < i2 → ∀ t : Trajectory, (pre ++ l)[j]? = some t → (l.foldl scanStep b).cost_ < t.cost_) := by
  intro l
  induction l with
  | nil =>
    intro pre b i h1 h2 h3
    exact ⟨i, (by simpa using h1 : (pre ++ [])[i]? = some b), by simpa using h2, by simpa using h3⟩
  | cons a l ih =>
    intro pre b i h1 h2 h3
    have hil : i < pre.length := (List.getElem?_eq_some.1 h1).1
    have happ : pre ++ a :: l = (pre ++ [a]) ++ l := by simp
    rw [happ]
    simp only [List.foldl_cons]
    by_cases hc : b.cost_ > a.cost_
    · have hs : scanStep b a = a := by simp [scanStep, hc]
      rw [hs]
      apply ih (pre ++ [a]) a pre.length
      · rw [List.getElem?_append_right (Nat.le_refl _)]; simp
      · intro t ht
        rcases List.mem_append.1 ht with h | h
        · have := h2 t h; omega
        · rw [List.mem_singleton.1 h]
      · intro j hj t htj
        rw [List.getElem?_append_left hj] at htj
        have := h2 t (List.mem_iff_getElem?.2 ⟨j, htj⟩); omega
    · have hs : scanStep b a = b := by simp [scanStep, hc]
      rw [hs]
      apply ih (pre ++ [a]) b i
      · rw [List.getElem?_append_left hil]; exact h1
      · intro t ht
        rcases List.mem_append.1 ht with h | h
        · exact h2 t h
        · rw [List.mem_singleton.1 h]; omega
      · intro j hj t htj
        rw [List.getElem?_append_left (by omega)] at htj
        exact h3 j hj t htj

/-- The final scan returns the first-encountered minimum-cost element of the kept set. -/
theorem lowestCost_spec (kept : List Trajectory) (best : Trajectory)
    (h : lowestCost kept = some best) :
    ∃ i : Nat, kept[i]? = some best ∧ (∀ t ∈ kept, best.cost_ ≤ t.cost_) ∧
      (∀ j, j < i → ∀ t : Trajectory, kept[j]? = some t → best.cost_ < t.cost_) := by
  cases kept with
  | nil => simp [lowestCost] at h
  | cons t0 rest =>
    have hs : scanStep t0 t0 = t0 := by simp [scanStep]
    simp only [lowestCost, List.getElem?_cons_zero, List.foldl_cons, hs,
      Option.some.injEq] at h
    subst h
    have := scan_spec rest [t0] t0 0 (by simp) (by simp) (by intro j hj; omega)
    simpa using this

/-- Appending through the validity test keeps a candidate list free of negative costs. -/
theorem keepIfValid_nonneg (acc : List Trajectory) (tj : Trajectory)
    (h : ∀ t ∈ acc, 0 ≤ t.cost_) : ∀ t ∈ keepIfValid acc tj, 0 ≤ t.cost_ := by
  intro t ht
  unfold keepIfValid at ht
  split at ht
  · rcases List.mem_append.1 ht with h1 | h1
    · exact h t h1
    · rw [List.mem_singleton.1 h1]; simpa using ‹tj.cost_ ≥ 0›
  · exact h t ht

/-- The candidates of round 0 have non-negative cost. -/
theorem firstRound_nonneg (C : Collaborators) (P : Planner) (vx vy w : Int) (pose : Pose) :
    ∀ t ∈ firstRound C P vx vy w pose, 0 ≤ t.cost_ := by
  unfold firstRound
  apply foldl_preserves (firstRoundStep C P pose) (fun acc => ∀ t ∈ acc, 0 ≤ t.cost_)
  · intro acc v hacc
    unfold firstRoundStep
    simp only
    split
    · exact keepIfValid_nonneg acc _ hacc
    · exact hacc
  · intro t ht; cases ht

/-- The candidates of a later round have non-negative cost. -/
theorem expandRound_nonneg (C : Collaborators) (P : Planner) (kept traj : List Trajectory)
    (h : expandRound C P kept = some traj) : ∀ t ∈ traj, 0 ≤ t.cost_ := by
  unfold expandRound at h
  refine foldlM_preserves (expandOne C P) (fun acc => ∀ t ∈ acc, 0 ≤ t.cost_) ?_ kept [] traj
    (by intro t ht; cases ht) h
  intro acc tj acc2 hacc hone
  unfold expandOne at hone
  split at hone
  · refine foldlM_preserves (expandStep C P tj) (fun acc => ∀ t ∈ acc, 0 ≤ t.cost_) ?_ _ acc
      acc2 hacc hone
    intro a v a2 ha hst
    unfold expandStep at hst
    simp only at hst
    split at hst
    · split at hst
      · cases hst; exact keepIfValid_nonneg a _ ha
      · cases hst; exact ha
    · cases hst
  · cases hone

/-- The later rounds keep the frontier consistent: the candidates of the last round have
non-negative cost and the kept trajectories are what the selector returns for them. -/
theorem laterRounds_inv (C : Collaborators) (P : Planner) :
    ∀ (n : Nat) (f g : Frontier), laterRounds C P n f = some (some g) →
      (∀ t ∈ f.collected, 0 ≤ t.cost_) →
      getBestTrajectories P.num_best_traj_ f.collected = some f.trajectories →
      (∀ t ∈ g.collected, 0 ≤ t.cost_) ∧
        getBestTrajectories P.num_best_traj_ g.collected = some g.trajectories := by
  intro n
  induction n with
  | zero =>
    intro f g h h1 h2
    simp only [laterRounds, Option.some.injEq] at h
    subst h; exact ⟨h1, h2⟩
  | succ n ih =>
    intro f g h _ _
    unfold laterRounds at h
    split at h
    · cases h
    · rename_i traj htraj
      split at h
      · cases h
      · rename_i kept hkept
        split at h
        · cases h
        · exact ih ⟨traj, kept⟩ g h (expandRound_nonneg C P _ _ htraj) hkept

/-- What a successful search guarantees about its result. -/
theorem computeBestTrajectory_success (C : Collaborators) (P : Planner) (vx vy w : Int)
    (pose : Pose) (r : SearchResult)
    (h : computeBestTrajectory C P vx vy w pose = some (some r)) :
    (∀ t ∈ r.collected, 0 ≤ t.cost_) ∧
      getBestTrajectories P.num_best_traj_ r.collected = some r.kept ∧
      lowestCost r.kept = some r.best_traj := by
  unfold computeBestTrajectory at h
  simp only at h
  split at h
  · cases h
  · split at h
    · cases h
    · rename_i kept hkept
      split at h
      · cases h
      · cases h
      · rename_i f hf
        obtain ⟨hf1, hf2⟩ := laterRounds_inv C P _ _ f hf
          (firstRound_nonneg C P vx vy w pose) hkept
        split at h
        · rename_i path best _ hbest
          simp only [Option.some.injEq] at h
          subst h
          exact ⟨hf1, hf2, hbest⟩
        · cases h

/-! ## The lookahead search: claims C3, C5, C6, C10 -/

/-- C3 fails in the later rounds: with depth 2, round 0 keeps two trajectories, every
extension is scored negative, so the candidate list of round 1 is empty, and the selector
is called on it before the emptiness test: the search ends in the out-of-bounds read of
`trajectories[0]` instead of returning failure. -/
theorem later_round_selects_from_empty :
    computeBestTrajectory demoCollaborators defaultPlanner 0 0 0 ⟨0, 0, 0⟩ =
        some (some demoResult) ∧
      expandRound demoCollaborators { defaultPlanner with depth_ := 2 } demoResult.kept =
        some [] ∧
      getBestTrajectories 10 [] = none ∧
      computeBestTrajectory demoCollaborators { defaultPlanner with depth_ := 2 } 0 0 0
        ⟨0, 0, 0⟩ = none := by
  decide

/-- C5: whatever the generator and the scorer return, the candidates of round 0 and of
every later round have cost ≥ 0, a trajectory scored negative leaves the candidate list
unchanged, and when the search succeeds the candidates of the last round, the kept
trajectories and the chosen best trajectory all have cost ≥ 0. -/
theorem candidates_nonneg (C : Collaborators) (P : Planner) (vx vy w : Int) (pose : Pose) :
    (∀ t ∈ firstRound C P vx vy w pose, 0 ≤ t.cost_) ∧
      (∀ kept traj, expandRound C P kept = some traj → ∀ t ∈ traj, 0 ≤ t.cost_) ∧
      (∀ acc tj, tj.cost_ < 0 → keepIfValid acc tj = acc) ∧
      (∀ r, computeBestTrajectory C P vx vy w pose = some (some r) →
        (∀ t ∈ r.collected, 0 ≤ t.cost_) ∧ (∀ t ∈ r.kept, 0 ≤ t.cost_) ∧
          0 ≤ r.best_traj.cost_) := by
  refine ⟨firstRound_nonneg C P vx vy w pose, expandRound_nonneg C P, ?_, ?_⟩
  · intro acc tj hneg
    have : ¬ (tj.cost_ ≥ 0) := by omega
    simp [keepIfValid, this]
  · intro r h
    obtain ⟨h1, h2, h3⟩ := computeBestTrajectory_success C P vx vy w pose r h
    have hk : ∀ t ∈ r.kept, 0 ≤ t.cost_ := fun t ht =>
      h1 t (getBestTrajectories_subset _ _ _ h2 t ht)
    obtain ⟨i, hi, _, _⟩ := lowestCost_spec r.kept r.best_traj h3
    exact ⟨h1, hk, hk _ (List.mem_iff_getElem?.2 ⟨i, hi⟩)⟩

/-- Witness for C5: the search from rest at the origin succeeds with a best trajectory of
cost 0. -/
theorem candidates_nonneg_witness :
    computeBestTrajectory demoCollaborators defaultPlanner 0 0 0 ⟨0, 0, 0⟩ =
        some (some demoResult) ∧
      ((∀ t ∈ demoResult.collected, 0 ≤ t.cost_) ∧ (∀ t ∈ demoResult.kept, 0 ≤ t.cost_) ∧
        0 ≤ demoResult.best_traj.cost_) :=
  ⟨by decide,
    (candidates_nonneg demoCollaborators defaultPlanner 0 0 0 ⟨0, 0, 0⟩).2.2.2 demoResult
      (by decide)⟩

/-- C6: when the search succeeds, the chosen trajectory is an element of the final kept
set, no element of that set is cheaper, and every element at an earlier position of the
kept set is strictly more expensive (first-encountered minimum). -/
theorem best_is_first_minimum (C : Collaborators) (P : Planner) (vx vy w : Int) (pose : Pose)
    (r : SearchResult) (h : computeBestTrajectory C P vx vy w pose = some (some r)) :
    ∃ i : Nat, r.kept[i]? = some r.best_traj ∧ (∀ t ∈ r.kept, r.best_traj.cost_ ≤ t.cost_) ∧
      (∀ j, j < i → ∀ t : Trajectory, r.kept[j]? = some t → r.best_traj.cost_ < t.cost_) :=
  lowestCost_spec r.kept r.best_traj (computeBestTrajectory_success C P vx vy w pose r h).2.2

/-- Witness for C6: the search from rest at the origin. -/
theorem best_is_first_minimum_witness :
    ∃ i : Nat, demoResult.kept[i]? = some demoResult.best_traj ∧
      (∀ t ∈ demoResult.kept, demoResult.best_traj.cost_ ≤ t.cost_) ∧
      (∀ j, j < i → ∀ t : Trajectory, demoResult.kept[j]? = some t →
        demoResult.best_traj.cost_ < t.cost_) :=
  best_is_first_minimum demoCollaborators defaultPlanner 0 0 0 ⟨0, 0, 0⟩ demoResult
    (by decide)

/-- C10: for a beam width K ≥ 1, when the search succeeds the kept set is what the selector
returns for the candidates collected in the last round, the chosen trajectory is one of the
kept trajectories and hence one of those candidates, and it costs no more than any of those
candidates: it is a minimum-cost element of the last round's candidates. -/
theorem best_is_global_minimum (C : Collaborators) (P : Planner) (vx vy w : Int)
    (pose : Pose) (r : SearchResult) (hK : 1 ≤ P.num_best_traj_)
    (h : computeBestTrajectory C P vx vy w pose = some (some r)) :
    getBestTrajectories P.num_best_traj_ r.collected = some r.kept ∧
      r.best_traj ∈ r.kept ∧ r.best_traj ∈ r.collected ∧
      ∀ c ∈ r.collected, 0 ≤ c.cost_ ∧ r.best_traj.cost_ ≤ c.cost_ := by
  obtain ⟨h1, h2, h3⟩ := computeBestTrajectory_success C P vx vy w pose r h
  obtain ⟨i, hi, hmin, _⟩ := lowestCost_spec r.kept r.best_traj h3
  have hkept : r.best_traj ∈ r.kept := List.mem_iff_getElem?.2 ⟨i, hi⟩
  refine ⟨h2, hkept, getBestTrajectories_subset _ _ _ h2 _ hkept, fun c hc => ⟨h1 c hc, ?_⟩⟩
  rcases selector_excluded _ _ _ hK h2 c hc with hin | hout
  · exact hmin c hin
  · exact hout _ hkept

/-- Witness for C10: two rounds with beam width 2; the last round collects four candidates,
two are kept, and the chosen one is a candidate that is the cheapest of the four. -/
theorem best_is_global_minimum_witness :
    ∃ r, computeBestTrajectory acceptingCollaborators deepPlanner 0 0 0 ⟨0, 0, 0⟩ =
        some (some r) ∧ r.collected.length = 4 ∧ r.kept.length = 2 ∧
      getBestTrajectories deepPlanner.num_best_traj_ r.collected = some r.kept ∧
      r.best_traj ∈ r.kept ∧ r.best_traj ∈ r.collected ∧
      ∀ c ∈ r.collected, 0 ≤ c.cost_ ∧ r.best_traj.cost_ ≤ c.cost_ :=
  ⟨_, rfl, rfl, rfl,
    best_is_global_minimum acceptingCollaborators deepPlanner 0 0 0 ⟨0, 0, 0⟩ _ (by decide)
      rfl⟩

/-! ## The control loop: claims C7, C8 -/

/-- C7 fails on the code: in `AwaitingLocalizableGoal` the cancellation flag is not read.
With the flag set and the transform lookup failing, any number of retries leaves the loop
in `AwaitingLocalizableGoal`; it does not terminate. -/
theorem awaiting_ignores_cancellation (C : Collaborators) (P : Planner) (goal pose : Pose)
    (published : List Velocity) (odomPose : Pose) (odomTwist : Velocity)
    (robotPose : Option Pose) (n : Nat) :
    computeTwist C P ⟨Phase.awaitingLocalizableGoal, goal, pose, published⟩
        (List.replicate n ⟨true, none, odomPose, odomTwist, robotPose⟩) =
      ⟨Phase.awaitingLocalizableGoal, goal, pose, published⟩ := by
  induction n with
  | zero => rfl
  | succ n ih =>
    simp only [computeTwist, List.replicate_succ, List.foldl_cons] at ih ⊢
    exact ih

end XDWA
